import Mathlib

/-!
Shallow embedding of the core logic of `src/grid.tsx` (elastic-grid):
the value index (`columnValueMap`), the suggestion computation
(`suggestions`), the chip-to-filter translation (`applyFilters`), the
global row predicate (`doesExternalFilterPass`), and the event handlers
(`handleSelect`, `handleInputChange`, `handleBlur`, `onKeyDown`).

Rows are records of named string fields (the source's `RowData` has only
string fields, so JavaScript `String(val)` is the identity); we model a
row as the list of its `(field name, field value)` entries in field
order, mirroring `Object.entries`. JavaScript `Record<string, _>`
objects and `Set<string>` are modelled as insertion-ordered association
lists and duplicate-free insertion-ordered lists respectively, so that
iteration order is preserved faithfully.
-/

namespace ElasticGrid

/-- A committed or proposed selection: a column name (or the sentinel
`"global"`) together with the matched or entered text.  Mirrors the
`Suggestion` type of the source. -/
structure Suggestion where
  column : String
  value : String
deriving DecidableEq, Repr

/-- A row, as the list of its `(field name, stringified field value)`
entries in field order (the view of a `RowData` object that
`Object.entries` yields). -/
abbrev Row := List (String × String)

/-- The stringified field values of a row in field order, mirroring
`Object.values(node.data)` with `String(val)` applied. -/
def rowValues (r : Row) : List String := r.map Prod.snd

/-- A `Record<string, Set<string>>` / `Record<string, string[]>`, as an
insertion-ordered association list from column names to value lists. -/
abbrev ValueMap := List (String × List String)

/-- Lookup in a `ValueMap`: the value list stored under column `c`, or
`[]` when the column has no entry. -/
def lookupValues (m : ValueMap) (c : String) : List String :=
  match m with
  | [] => []
  | (c', vs) :: rest => if c' = c then vs else lookupValues rest c

/-- JavaScript `Set.add`: append the element unless it is already
present (sets preserve insertion order). -/
def setAdd (s : List String) (v : String) : List String :=
  if v ∈ s then s else s ++ [v]

/-- One step of `columnValueMap`'s inner loop:
`if (!map[col]) map[col] = new Set(); map[col].add(String(val))`. -/
def recordAdd (m : ValueMap) (col v : String) : ValueMap :=
  match m with
  | [] => [(col, [v])]
  | (c, vs) :: rest =>
      if c = col then (c, setAdd vs v) :: rest else (c, vs) :: recordAdd rest col v

/-- The body of `columnValueMap`'s outer `forEach`: fold one row's
entries into the map. -/
def addRowToMap (m : ValueMap) (row : Row) : ValueMap :=
  row.foldl (fun m cv => recordAdd m cv.1 cv.2) m

/-- `columnValueMap` (src/grid.tsx lines 62-71): build
column -> set of distinct stringified values from the available rows. -/
def columnValueMap (rows : List Row) : ValueMap :=
  rows.foldl addRowToMap []

/-- `startsWithChars needle hay`: `needle` is an initial segment of
`hay`. -/
def startsWithChars : List Char → List Char → Bool
  | [], _ => true
  | _ :: _, [] => false
  | a :: as, b :: bs => a == b && startsWithChars as bs

/-- `hasSegment needle hay`: `needle` occurs contiguously inside
`hay`. -/
def hasSegment (needle : List Char) : List Char → Bool
  | [] => startsWithChars needle []
  | b :: bs => startsWithChars needle (b :: bs) || hasSegment needle bs

/-- JavaScript `hay.includes(needle)`: substring containment. -/
def jsIncludes (hay needle : String) : Bool :=
  hasSegment needle.data hay.data

/-- `suggestions` (src/grid.tsx lines 74-87): empty input yields no
suggestions; otherwise every `(column, value)` of the index whose value
contains the input case-insensitively, in column-then-value iteration
order. -/
def suggestions (inputValue : String) (cvm : ValueMap) : List Suggestion :=
  if inputValue = "" then []
  else
    cvm.flatMap fun p =>
      (p.2.filter fun val => jsIncludes val.toLower inputValue.toLower).map
        fun val => ⟨p.1, val⟩

/-- One step of `applyFilters`'s non-global branch:
`if (!filterModel[s.column]) filterModel[s.column] = {..., values: []};
filterModel[s.column].values.push(s.value)`. -/
def pushValue (m : ValueMap) (col v : String) : ValueMap :=
  match m with
  | [] => [(col, [v])]
  | (c, vs) :: rest =>
      if c = col then (c, vs ++ [v]) :: rest else (c, vs) :: pushValue rest col v

/-- The body of the `filters.forEach` loop in `applyFilters`: a global
chip appends its lowercased value to the term sequence, any other chip
pushes its value under its column in the filter model. -/
def filterStep (acc : ValueMap × List String) (s : Suggestion) :
    ValueMap × List String :=
  if s.column = "global" then (acc.1, acc.2 ++ [s.value.toLower])
  else (pushValue acc.1 s.column s.value, acc.2)

/-- The filter translation inside `applyFilters` (src/grid.tsx lines
93-105): partition the chips into a per-column filter model (values
pushed per column, entries created lazily) and the sequence of
lowercased global terms, in chip order.  The `filterType: "set"`
metadata is constant and omitted. -/
def applyFiltersModel (filters : List Suggestion) : ValueMap × List String :=
  filters.foldl filterStep ([], [])

/-- `doesExternalFilterPass` (src/grid.tsx lines 114-121): with no
global terms every row passes; otherwise every term must be contained
in the lowercasing of some field value of the row. -/
def doesExternalFilterPass (globalTerms : List String) (row : Row) : Bool :=
  if globalTerms.length = 0 then true
  else globalTerms.all fun term =>
    (rowValues row).any fun val => jsIncludes val.toLower term

/-- The component state the handlers read and write: the current input
text and the committed chip sequence. -/
structure GridState where
  inputValue : String
  selected : List Suggestion
deriving DecidableEq, Repr

/-- `handleSelect` (src/grid.tsx lines 127-133): store the new chip
sequence the widget reports and hand it to `applyFilters`.  The second
component records the argument passed to `applyFilters`. -/
def handleSelect (st : GridState) (newValue : List Suggestion) :
    GridState × List Suggestion :=
  ({ st with selected := newValue }, newValue)

/-- `handleInputChange` (src/grid.tsx lines 136-138): store the new
input text. -/
def handleInputChange (st : GridState) (newInput : String) : GridState :=
  { st with inputValue := newInput }

/-- The select operation as the autocomplete widget drives it when an
option is chosen: in multiple-selection mode the widget invokes
`onChange` with the previous chips plus the chosen suggestion
(`handleSelect`) and resets the input text to `""`
(`handleInputChange`).  The second component records the argument
passed to `applyFilters`. -/
def selectOp (st : GridState) (chosen : Suggestion) :
    GridState × List Suggestion :=
  let r := handleSelect st (st.selected ++ [chosen])
  (handleInputChange r.1 "", r.2)

/-- `handleBlur` (src/grid.tsx lines 141-149): when the input text is
non-empty (JS truthiness) and the suggestion list for it is empty,
append a global chip with the input text, clear the input, and apply
the filters; otherwise do nothing.  The second component records the
argument passed to `applyFilters` (`none` when it is not called). -/
def handleBlur (cvm : ValueMap) (st : GridState) :
    GridState × Option (List Suggestion) :=
  if st.inputValue ≠ "" ∧ suggestions st.inputValue cvm = [] then
    let updated := st.selected ++ [⟨"global", st.inputValue⟩]
    ({ inputValue := "", selected := updated }, some updated)
  else (st, none)

/-- `onKeyDown` (src/grid.tsx lines 191-209): the Enter branch commits
free text exactly like `handleBlur`; the Backspace branch pops the last
chip when the input text is empty and chips exist.  The two `if`s run
in sequence on the same captured state, as in the source.  The second
component records the last argument passed to `applyFilters` (`none`
when it is not called). -/
def onKeyDown (cvm : ValueMap) (key : String) (st : GridState) :
    GridState × Option (List Suggestion) :=
  let r1 :=
    if key = "Enter" ∧ st.inputValue ≠ "" ∧ suggestions st.inputValue cvm = [] then
      let updated := st.selected ++ [⟨"global", st.inputValue⟩]
      (GridState.mk "" updated, some updated)
    else (st, none)
  if key = "Backspace" ∧ st.inputValue = "" ∧ st.selected ≠ [] then
    let updated := st.selected.dropLast
    ({ r1.1 with selected := updated }, some updated)
  else r1

/-! ### Membership lemmas for the map operations -/

theorem mem_setAdd {s : List String} {v v₀ : String} :
    v ∈ setAdd s v₀ ↔ v = v₀ ∨ v ∈ s := by
  unfold setAdd
  split
  · rename_i h
    constructor
    · exact Or.inr
    · rintro (rfl | hv) <;> assumption
  · simp [or_comm]

theorem mem_lookupValues_recordAdd {m : ValueMap} {c c₀ v v₀ : String} :
    v ∈ lookupValues (recordAdd m c₀ v₀) c ↔
      (c = c₀ ∧ v = v₀) ∨ v ∈ lookupValues m c := by
  induction m with
  | nil =>
    by_cases h : c₀ = c <;> simp [recordAdd, lookupValues, h] <;> tauto
  | cons p rest ih =>
    obtain ⟨c', vs⟩ := p
    by_cases h₁ : c' = c₀
    · subst h₁
      by_cases h₂ : c' = c
      · subst h₂
        simp [recordAdd, lookupValues, mem_setAdd]
      · have hc : ¬(c = c') := fun hc => h₂ hc.symm
        simp [recordAdd, lookupValues, h₂]
        tauto
    · by_cases h₂ : c' = c
      · subst h₂
        simp [recordAdd, lookupValues, h₁]
      · simp [recordAdd, lookupValues, h₁, h₂, ih]

theorem mem_lookupValues_pushValue {m : ValueMap} {c c₀ v v₀ : String} :
    v ∈ lookupValues (pushValue m c₀ v₀) c ↔
      (c = c₀ ∧ v = v₀) ∨ v ∈ lookupValues m c := by
  induction m with
  | nil =>
    by_cases h : c₀ = c <;> simp [pushValue, lookupValues, h] <;> tauto
  | cons p rest ih =>
    obtain ⟨c', vs⟩ := p
    by_cases h₁ : c' = c₀
    · subst h₁
      by_cases h₂ : c' = c
      · subst h₂
        simp [pushValue, lookupValues]
        tauto
      · simp [pushValue, lookupValues, h₂]
        tauto
    · by_cases h₂ : c' = c
      · subst h₂
        simp [pushValue, lookupValues, h₁]
      · simp [pushValue, lookupValues, h₁, h₂, ih]

theorem key_of_mem_pushValue {m : ValueMap} {c c₀ v₀ : String} {vs : List String}
    (h : (c, vs) ∈ pushValue m c₀ v₀) :
    c = c₀ ∨ ∃ vs', (c, vs') ∈ m := by
  induction m with
  | nil =>
    simp [pushValue] at h
    exact Or.inl h.1
  | cons p rest ih =>
    obtain ⟨c', vs'⟩ := p
    by_cases h₁ : c' = c₀
    · subst h₁
      simp [pushValue] at h
      rcases h with ⟨hc, _⟩ | hm
      · exact Or.inl hc
      · exact Or.inr ⟨vs, List.mem_cons_of_mem _ hm⟩
    · rw [pushValue, if_neg h₁] at h
      rcases List.mem_cons.mp h with hp | hm
      · have hcc : c = c' := (Prod.ext_iff.mp hp).1
        exact Or.inr ⟨vs', by rw [hcc]; exact List.mem_cons_self _ _⟩
      · rcases ih hm with hc | ⟨vs'', hvs''⟩
        · exact Or.inl hc
        · exact Or.inr ⟨vs'', List.mem_cons_of_mem _ hvs''⟩

/-! ### Characterisation of the value index -/

theorem mem_lookupValues_addRowToMap {row : Row} {m : ValueMap} {c v : String} :
    v ∈ lookupValues (addRowToMap m row) c ↔
      (c, v) ∈ row ∨ v ∈ lookupValues m c := by
  induction row generalizing m with
  | nil => simp [addRowToMap]
  | cons p rest ih =>
    have hstep : addRowToMap m (p :: rest) = addRowToMap (recordAdd m p.1 p.2) rest := rfl
    rw [hstep, ih, mem_lookupValues_recordAdd]
    simp only [List.mem_cons, Prod.ext_iff]
    tauto

theorem mem_lookupValues_foldRows {rows : List Row} {m : ValueMap} {c v : String} :
    v ∈ lookupValues (rows.foldl addRowToMap m) c ↔
      (∃ r ∈ rows, (c, v) ∈ r) ∨ v ∈ lookupValues m c := by
  induction rows generalizing m with
  | nil => simp
  | cons r rest ih =>
    rw [List.foldl_cons, ih, mem_lookupValues_addRowToMap]
    simp only [List.mem_cons]
    constructor
    · rintro (⟨r', hr', hcv⟩ | hcv | hm)
      · exact Or.inl ⟨r', Or.inr hr', hcv⟩
      · exact Or.inl ⟨r, Or.inl rfl, hcv⟩
      · exact Or.inr hm
    · rintro (⟨r', rfl | hr', hcv⟩ | hm)
      · exact Or.inr (Or.inl hcv)
      · exact Or.inl ⟨r', hr', hcv⟩
      · exact Or.inr (Or.inr hm)

theorem mem_lookupValues_columnValueMap {rows : List Row} {c v : String} :
    v ∈ lookupValues (columnValueMap rows) c ↔ ∃ r ∈ rows, (c, v) ∈ r := by
  unfold columnValueMap
  rw [mem_lookupValues_foldRows]
  simp [lookupValues]

/-! ### Characterisation of the filter translation -/

theorem snd_foldl_filterStep (filters : List Suggestion)
    (acc : ValueMap × List String) :
    (filters.foldl filterStep acc).2 =
      acc.2 ++ (filters.filter fun s => s.column == "global").map
        fun s => s.value.toLower := by
  induction filters generalizing acc with
  | nil => simp
  | cons s rest ih =>
    rw [List.foldl_cons, ih]
    by_cases h : s.column = "global"
    · simp [filterStep, h, List.filter_cons]
    · simp [filterStep, h, List.filter_cons]

theorem mem_fst_foldl_filterStep (filters : List Suggestion)
    (acc : ValueMap × List String) {c v : String} (hc : c ≠ "global") :
    v ∈ lookupValues (filters.foldl filterStep acc).1 c ↔
      (∃ s ∈ filters, s.column = c ∧ s.value = v) ∨ v ∈ lookupValues acc.1 c := by
  induction filters generalizing acc with
  | nil => simp
  | cons s rest ih =>
    rw [List.foldl_cons, ih]
    by_cases h : s.column = "global"
    · have hsc : ¬(s.column = c) := fun hsc => hc (hsc ▸ h)
      simp only [filterStep, if_pos h, List.mem_cons]
      constructor
      · rintro (⟨s', hs', hskip⟩ | hacc)
        · exact Or.inl ⟨s', Or.inr hs', hskip⟩
        · exact Or.inr hacc
      · rintro (⟨s', rfl | hs', hskip⟩ | hacc)
        · exact absurd hskip.1 hsc
        · exact Or.inl ⟨s', hs', hskip⟩
        · exact Or.inr hacc
    · simp only [filterStep, if_neg h, mem_lookupValues_pushValue, List.mem_cons]
      constructor
      · rintro (⟨s', hs', hskip⟩ | ⟨rfl, rfl⟩ | hacc)
        · exact Or.inl ⟨s', Or.inr hs', hskip⟩
        · exact Or.inl ⟨s, Or.inl rfl, rfl, rfl⟩
        · exact Or.inr hacc
      · rintro (⟨s', rfl | hs', hv₁, hv₂⟩ | hacc)
        · exact Or.inr (Or.inl ⟨hv₁.symm, hv₂.symm⟩)
        · exact Or.inl ⟨s', hs', hv₁, hv₂⟩
        · exact Or.inr (Or.inr hacc)

theorem key_of_mem_fst_foldl_filterStep (filters : List Suggestion)
    (acc : ValueMap × List String) {c : String} {vs : List String}
    (h : (c, vs) ∈ (filters.foldl filterStep acc).1) :
    (∃ s ∈ filters, s.column = c ∧ c ≠ "global") ∨ ∃ vs', (c, vs') ∈ acc.1 := by
  induction filters generalizing acc with
  | nil => exact Or.inr ⟨vs, h⟩
  | cons s rest ih =>
    rw [List.foldl_cons] at h
    rcases ih (filterStep acc s) h with ⟨s', hs', hcol, hglb⟩ | ⟨vs', hvs'⟩
    · exact Or.inl ⟨s', List.mem_cons_of_mem _ hs', hcol, hglb⟩
    · by_cases hg : s.column = "global"
      · rw [show (filterStep acc s).1 = acc.1 from by simp [filterStep, hg]] at hvs'
        exact Or.inr ⟨vs', hvs'⟩
      · rw [show (filterStep acc s).1 = pushValue acc.1 s.column s.value from by
          simp [filterStep, hg]] at hvs'
        rcases key_of_mem_pushValue hvs' with rfl | hacc
        · exact Or.inl ⟨s, List.mem_cons_self _ _, rfl, hg⟩
        · exact Or.inr hacc

/-! ### Characterisation of the global predicate and the suggestions -/

theorem doesExternalFilterPass_eq_all (globalTerms : List String) (row : Row) :
    doesExternalFilterPass globalTerms row =
      globalTerms.all fun term =>
        (rowValues row).any fun val => jsIncludes val.toLower term := by
  unfold doesExternalFilterPass
  split
  · rename_i hlen
    rw [List.length_eq_zero.mp hlen]
    rfl
  · rfl

theorem mem_suggestions (t : String) (I : ValueMap) (ht : t ≠ "")
    {c v : String} :
    Suggestion.mk c v ∈ suggestions t I ↔
      (∃ vs, (c, vs) ∈ I ∧ v ∈ vs) ∧
        jsIncludes v.toLower t.toLower = true := by
  unfold suggestions
  rw [if_neg ht]
  simp only [List.mem_flatMap, List.mem_map, List.mem_filter, Suggestion.mk.injEq]
  constructor
  · rintro ⟨⟨c', vs⟩, hmem, val, ⟨hval, hincl⟩, rfl, rfl⟩
    exact ⟨⟨vs, hmem, hval⟩, hincl⟩
  · rintro ⟨⟨vs, hmem, hval⟩, hincl⟩
    exact ⟨(c, vs), hmem, v, ⟨hval, hincl⟩, rfl, rfl⟩

/-- The Enter branch of `onKeyDown` and `handleBlur` compute the same
free-text commit (shared helper). -/
theorem onKeyDown_enter_eq_blur (cvm : ValueMap) (st : GridState) :
    onKeyDown cvm "Enter" st = handleBlur cvm st := by
  have hkey : ¬(("Enter" : String) = "Backspace" ∧ st.inputValue = "" ∧
      st.selected ≠ []) := fun hcon => absurd hcon.1 (by decide)
  simp only [onKeyDown, handleBlur, if_neg hkey, true_and]

/-! ### The claims -/

/-- C1: `applyFilters`'s translation maps each non-`"global"` column
that occurs in some chip to exactly the set of values of the chips on
that column, creates no entry for a column without a chip (every key of
the filter model is a non-`"global"` column of some chip), produces the
lowercased values of the `"global"` chips in chip order as the global
terms, and yields `([], [])` on the empty chip sequence. -/
theorem applyFilters_translates_chips (chips : List Suggestion) :
    (∀ c v : String, c ≠ "global" →
      (v ∈ lookupValues (applyFiltersModel chips).1 c ↔
        ∃ s ∈ chips, s.column = c ∧ s.value = v)) ∧
    (∀ (c : String) (vs : List String),
      (c, vs) ∈ (applyFiltersModel chips).1 →
        c ≠ "global" ∧ ∃ s ∈ chips, s.column = c) ∧
    (applyFiltersModel chips).2 =
      (chips.filter fun s => s.column == "global").map
        (fun s => s.value.toLower) ∧
    applyFiltersModel [] = (([] : ValueMap), ([] : List String)) := by
  refine ⟨?_, ?_, ?_, rfl⟩
  · intro c v hc
    rw [applyFiltersModel, mem_fst_foldl_filterStep _ _ hc]
    simp [lookupValues]
  · intro c vs h
    rw [applyFiltersModel] at h
    rcases key_of_mem_fst_foldl_filterStep _ _ h with ⟨s, hs, hcol, hglb⟩ | ⟨vs', hvs'⟩
    · exact ⟨hglb, s, hs, hcol⟩
    · simp at hvs'
  · rw [applyFiltersModel, snd_foldl_filterStep]
    rfl

/-- Witness for C1 at a concrete chip sequence. -/
theorem applyFilters_translates_chips_witness :
    (("sector" : String) ≠ "global") ∧
      ("Tech" ∈ lookupValues
          (applyFiltersModel [⟨"sector", "Tech"⟩, ⟨"global", "Ford"⟩]).1
          "sector" ↔
        ∃ s ∈ [Suggestion.mk "sector" "Tech", ⟨"global", "Ford"⟩],
          s.column = "sector" ∧ s.value = "Tech") :=
  ⟨by decide,
   (applyFilters_translates_chips [⟨"sector", "Tech"⟩, ⟨"global", "Ford"⟩]).1
     "sector" "Tech" (by decide)⟩

/-- C2: `doesExternalFilterPass` on the terms derived from the chips
accepts a row iff every global chip's value is a case-insensitive
substring of some field value of the row; on an empty term sequence it
accepts every row. -/
theorem globalPredicate_spec (chips : List Suggestion) (row : Row) :
    (doesExternalFilterPass (applyFiltersModel chips).2 row = true ↔
      ∀ s ∈ chips, s.column = "global" →
        ∃ val ∈ rowValues row,
          jsIncludes val.toLower s.value.toLower = true) ∧
    ((applyFiltersModel chips).2 = [] →
      doesExternalFilterPass (applyFiltersModel chips).2 row = true) := by
  have hterms : (applyFiltersModel chips).2 =
      (chips.filter fun s => s.column == "global").map
        fun s => s.value.toLower := by
    rw [applyFiltersModel, snd_foldl_filterStep]
    rfl
  constructor
  · rw [doesExternalFilterPass_eq_all, hterms]
    simp only [List.all_eq_true, List.any_eq_true, List.mem_map,
      List.mem_filter, beq_iff_eq]
    constructor
    · rintro hall s hs hg
      exact hall _ ⟨s, ⟨hs, hg⟩, rfl⟩
    · rintro hall term ⟨s, ⟨hs, hg⟩, rfl⟩
      exact hall s hs hg
  · intro h
    rw [doesExternalFilterPass_eq_all, h]
    rfl

/-- Witness for C2: the empty chip sequence yields empty terms and an
always-true predicate on a concrete row. -/
theorem globalPredicate_spec_witness :
    doesExternalFilterPass (applyFiltersModel []).2
      [("ticker", "AAPL"), ("name", "Apple Inc."), ("sector", "Tech")] = true :=
  (globalPredicate_spec []
    [("ticker", "AAPL"), ("name", "Apple Inc."), ("sector", "Tech")]).2 rfl

/-- C3: the value index contains `v` under column `c` iff some row has
field `c` with stringified value `v` (soundness and completeness). -/
theorem columnValueMap_sound_complete (R : List Row) (c v : String) :
    v ∈ lookupValues (columnValueMap R) c ↔ ∃ r ∈ R, (c, v) ∈ r :=
  mem_lookupValues_columnValueMap

/-- C4: for non-empty input, the suggestion list contains `(c, v)` iff
`c` is a key of the index, `v` lies in its set, and `v` contains the
input case-insensitively. -/
theorem suggestions_sound_complete (t : String) (I : ValueMap)
    (ht : t ≠ "") (c v : String) :
    Suggestion.mk c v ∈ suggestions t I ↔
      (∃ vs, (c, vs) ∈ I ∧ v ∈ vs) ∧
        jsIncludes v.toLower t.toLower = true :=
  mem_suggestions t I ht

/-- Witness for C4 at a concrete input and index. -/
theorem suggestions_sound_complete_witness :
    (("te" : String) ≠ "") ∧
      (Suggestion.mk "sector" "Tech" ∈
          suggestions "te" [("sector", ["Tech", "Auto"])] ↔
        (∃ vs, ("sector", vs) ∈ [("sector", ["Tech", "Auto"])] ∧
            "Tech" ∈ vs) ∧
          jsIncludes "Tech".toLower "te".toLower = true) :=
  ⟨by decide,
   suggestions_sound_complete "te" [("sector", ["Tech", "Auto"])] (by decide)
     "sector" "Tech"⟩

/-- C5: when the input text is non-empty and its suggestion list is
empty, `handleBlur` and the Enter branch of `onKeyDown` append the
global chip with the input text, clear the input, and pass the updated
chips to `applyFilters`; otherwise both leave the state unchanged and
do not call `applyFilters`. -/
theorem freeTextCommit_spec (cvm : ValueMap) (st : GridState) :
    (st.inputValue ≠ "" → suggestions st.inputValue cvm = [] →
      handleBlur cvm st =
        (GridState.mk "" (st.selected ++ [⟨"global", st.inputValue⟩]),
          some (st.selected ++ [⟨"global", st.inputValue⟩])) ∧
      onKeyDown cvm "Enter" st =
        (GridState.mk "" (st.selected ++ [⟨"global", st.inputValue⟩]),
          some (st.selected ++ [⟨"global", st.inputValue⟩]))) ∧
    ((st.inputValue = "" ∨ suggestions st.inputValue cvm ≠ []) →
      handleBlur cvm st = (st, none) ∧
      onKeyDown cvm "Enter" st = (st, none)) := by
  have hb := onKeyDown_enter_eq_blur cvm st
  constructor
  · intro h1 h2
    have hpos : handleBlur cvm st =
        (GridState.mk "" (st.selected ++ [⟨"global", st.inputValue⟩]),
          some (st.selected ++ [⟨"global", st.inputValue⟩])) := by
      rw [handleBlur, if_pos ⟨h1, h2⟩]
    exact ⟨hpos, by rw [hb, hpos]⟩
  · intro h
    have hneg : handleBlur cvm st = (st, none) := by
      rw [handleBlur,
        if_neg (fun hcon => h.elim (fun he => hcon.1 he) (fun hs => hs hcon.2))]
    exact ⟨hneg, by rw [hb, hneg]⟩

/-- Witness for C5 at a concrete state whose input has no suggestion. -/
theorem freeTextCommit_spec_witness :
    (("xyz" : String) ≠ "") ∧ suggestions "xyz" [] = [] ∧
      handleBlur [] ⟨"xyz", []⟩ =
        (GridState.mk "" [⟨"global", "xyz"⟩], some [⟨"global", "xyz"⟩]) :=
  ⟨by decide, by decide,
   ((freeTextCommit_spec [] ⟨"xyz", []⟩).1 (by decide) (by decide)).1⟩

/-- C6: with a non-empty chip sequence and empty input text, Backspace
removes exactly the last chip (the earlier chips stay in place);
otherwise the chip sequence is unchanged. -/
theorem backspace_removeLast_spec (cvm : ValueMap) (st : GridState) :
    (∀ h : st.selected ≠ [], st.inputValue = "" →
      onKeyDown cvm "Backspace" st =
        (GridState.mk st.inputValue st.selected.dropLast,
          some st.selected.dropLast) ∧
      st.selected.dropLast ++ [st.selected.getLast h] = st.selected) ∧
    ((st.selected = [] ∨ st.inputValue ≠ "") →
      onKeyDown cvm "Backspace" st = (st, none)) := by
  have hkey : ¬(("Backspace" : String) = "Enter" ∧ st.inputValue ≠ "" ∧
      suggestions st.inputValue cvm = []) := fun hcon => absurd hcon.1 (by decide)
  constructor
  · intro h he
    constructor
    · simp only [onKeyDown, if_neg hkey]
      rw [if_pos ⟨trivial, he, h⟩]
    · exact List.dropLast_append_getLast h
  · intro h
    simp only [onKeyDown, if_neg hkey]
    rw [if_neg (fun hcon => h.elim (fun he => hcon.2.2 he) (fun hi => hi hcon.2.1))]

/-- Witness for C6 at a concrete two-chip state with empty input. -/
theorem backspace_removeLast_spec_witness :
    ([Suggestion.mk "sector" "Tech", ⟨"global", "x"⟩] ≠ []) ∧
      (("" : String) = "") ∧
      onKeyDown [] "Backspace" ⟨"", [⟨"sector", "Tech"⟩, ⟨"global", "x"⟩]⟩ =
        (GridState.mk "" [⟨"sector", "Tech"⟩], some [⟨"sector", "Tech"⟩]) :=
  ⟨by decide, rfl,
   ((backspace_removeLast_spec [] ⟨"", [⟨"sector", "Tech"⟩, ⟨"global", "x"⟩]⟩).1
     (by decide) rfl).1⟩

/-- C7: the empty input yields no suggestions, for any index. -/
theorem suggestions_empty_input (I : ValueMap) : suggestions "" I = [] := by
  simp [suggestions]

/-- C8: choosing a suggestion appends it to the chip sequence, clears
the input text, and passes the updated chips to `applyFilters`
(`handleSelect` stores the chip sequence the widget reports — previous
chips plus the chosen one — and `handleInputChange` the reset text). -/
theorem selectOp_appends_clears (st : GridState) (chosen : Suggestion) :
    selectOp st chosen =
      (GridState.mk "" (st.selected ++ [chosen]), st.selected ++ [chosen]) :=
  rfl

/-- C9: the value index is independent of row order: permuting the rows
yields the same mapping from column names to sets of values. -/
theorem columnValueMap_perm_invariant (R R' : List Row) (h : R.Perm R')
    (c v : String) :
    (v ∈ lookupValues (columnValueMap R) c ↔
      v ∈ lookupValues (columnValueMap R') c) := by
  rw [mem_lookupValues_columnValueMap, mem_lookupValues_columnValueMap]
  constructor
  · rintro ⟨r, hr, hcv⟩
    exact ⟨r, h.mem_iff.mp hr, hcv⟩
  · rintro ⟨r, hr, hcv⟩
    exact ⟨r, h.mem_iff.mpr hr, hcv⟩

/-- Witness for C9 at a concrete pair of permuted row lists. -/
theorem columnValueMap_perm_invariant_witness :
    ([[("a", "1")], [("a", "2")]] : List Row).Perm
        [[("a", "2")], [("a", "1")]] ∧
      ("1" ∈ lookupValues (columnValueMap [[("a", "1")], [("a", "2")]]) "a" ↔
        "1" ∈ lookupValues (columnValueMap [[("a", "2")], [("a", "1")]]) "a") :=
  ⟨List.Perm.swap _ _ _,
   columnValueMap_perm_invariant _ _ (List.Perm.swap _ _ _) "a" "1"⟩

/-- C10: the blur handler and the Enter-key branch implement the same
free-text commit: same resulting state and same argument passed to
`applyFilters`, on every state. -/
theorem enter_blur_equivalent (cvm : ValueMap) (st : GridState) :
    onKeyDown cvm "Enter" st = handleBlur cvm st :=
  onKeyDown_enter_eq_blur cvm st

end ElasticGrid
